import Mathlib

/-
Verification of the IconvStringConverter component
(src/cpp/include/IceUtil/IconvStringConverter.h).

The component drives an external conversion engine (iconv) through a
grow-until-it-fits retry loop in two directions (toUTF8, fromUTF8), and
pools a pair of conversion descriptors per thread (createDescriptors,
getDescriptors).

The engine is modelled per character:
  enc : charT -> Except errno (list of UTF-8 bytes)   (internal -> UTF-8)
  dec : list of bytes -> Except errno (charT, extra-consumed-count)
        (UTF-8 -> internal; a successful decode of (c, k) consumes k+1
         input bytes, so the engine always consumes at least one byte per
         produced character, and produces exactly one charT, i.e. w bytes
         where w = sizeof(charT)).
A single iconv(3) call is the inner loop icvEnc / icvDec: it converts
character by character until the input is exhausted (status ok), the
output window cannot hold the next character (status fail E2BIG), or the
engine rejects the input (status fail errno).  The outer do/while loops of
toUTF8 / fromUTF8 are toUTF8Go / fromUTF8Go, carried by explicit fuel;
sufficiency of the chosen fuel is itself proved (claim C9).
-/

namespace IconvConv

/-- Errno value of the output-space shortfall condition E2BIG (Linux value 7). -/
def e2bigCode : Nat := 7

/-- Status of one conversion-engine call: success, or failure carrying an errno. -/
inductive IcvStatus where
  | ok : IcvStatus
  | fail : Nat → IcvStatus
deriving DecidableEq

/-- The message attached to IllegalConversionException by toUTF8 / fromUTF8:
the engine error text when an error code is available, the fallback otherwise. -/
def errText (strerror : Nat → String) (e : Nat) : String :=
  if e ≠ 0 then strerror e else "Unknown error"

/-- One capacity request made to the growable output buffer during toUTF8:
the requested byte count, the remaining input bytes at the moment of the
request, the write-cursor offset the window extends from, and the number of
bytes the engine then wrote into the window. -/
structure GrowReq where
  request : Nat
  remaining : Nat
  windowStart : Nat
  produced : Nat
deriving DecidableEq

/-- One iconv(3) call in the internal-to-UTF-8 direction: convert characters
from the input while the output window has room, returning remaining input,
the window contents written, the remaining window space, and the status. -/
def icvEnc (enc : α → Except Nat (List β)) :
    List α → List β → Nat → List α × List β × Nat × IcvStatus
  | [], win, outleft => ([], win, outleft, .ok)
  | c :: cs, win, outleft =>
    match enc c with
    | .error e => (c :: cs, win, outleft, .fail e)
    | .ok es =>
      if outleft < es.length then (c :: cs, win, outleft, .fail e2bigCode)
      else icvEnc enc cs (win ++ es) (outleft - es.length)

/-- One iconv(3) call in the UTF-8-to-internal direction: decode characters
from the input byte list, writing each produced character into the target
at index `used` (the write cursor in character units) while the output byte
budget `outleft` has at least `w` bytes; returns remaining input, updated
target storage, new cursor, remaining output bytes and status. -/
def icvDec (dec : List β → Except Nat (α × Nat)) (w : Nat) :
    List β → List α → Nat → Nat → List β × List α × Nat × Nat × IcvStatus
  | [], tgt, used, outleft => ([], tgt, used, outleft, .ok)
  | b :: bs, tgt, used, outleft =>
    match dec (b :: bs) with
    | .error e => (b :: bs, tgt, used, outleft, .fail e)
    | .ok (c, k) =>
      if outleft < w then (b :: bs, tgt, used, outleft, .fail e2bigCode)
      else icvDec dec w (bs.drop k) (tgt.set used c) (used + 1) (outleft - w)
termination_by inbuf _ _ _ => inbuf.length
decreasing_by
  simp only [List.length_drop, List.length_cons]
  omega

/-- The do/while loop of toUTF8: request max(inbytesleft, 4) bytes of fresh
window from the growable buffer at the current write cursor, run the engine,
retry on E2BIG, throw IllegalConversion (with errText) on any other failure,
and on success return the written bytes and the final cursor offset.  Each
iteration appends one GrowReq record to the trace.  `none` means the fuel
ran out (never happens with the fuel used by toUTF8Model, see claim C9). -/
def toUTF8Go (enc : α → Except Nat (List β)) (w : Nat) (strerror : Nat → String) :
    Nat → List α → List β → List GrowReq →
    Option (Except String (List β × Nat) × List GrowReq)
  | 0, _, _, _ => none
  | fuel + 1, input, written, tr =>
    let inbytesleft := input.length * w
    let howMany := max inbytesleft 4
    match icvEnc enc input [] howMany with
    | (input1, outBytes, _, st) =>
      let tr1 := tr ++ [⟨howMany, inbytesleft, written.length, outBytes.length⟩]
      match st with
      | .ok => some (.ok (written ++ outBytes, (written ++ outBytes).length), tr1)
      | .fail e =>
        if e = e2bigCode then toUTF8Go enc w strerror fuel input1 (written ++ outBytes) tr1
        else some (.error (errText strerror e), tr1)

/-- toUTF8 on an input of internal characters, starting from an empty buffer
with the write cursor at offset 0, with fuel one more than the character
count. -/
def toUTF8Model (enc : α → Except Nat (List β)) (w : Nat) (strerror : Nat → String)
    (input : List α) : Option (Except String (List β × Nat) × List GrowReq) :=
  toUTF8Go enc w strerror (input.length + 1) input [] []

/-- The do/while loop of fromUTF8: grow the target string by
increment = max(inbytesleft, 4) default-initialized characters, add
increment * w to the output byte budget, recompute the write cursor from the
bytes used so far (character index `used`), run the engine, retry on E2BIG,
throw IllegalConversion on any other failure, and on success shrink the
target to its allocated length minus the unused trailing capacity in
character units. -/
def fromUTF8Go (dec : List β → Except Nat (α × Nat)) (w : Nat) (dflt : α)
    (strerror : Nat → String) :
    Nat → List β → List α → Nat → Nat → Option (Except String (List α))
  | 0, _, _, _, _ => none
  | fuel + 1, inbuf, target, used, outbytesleft =>
    let inbytesleft := inbuf.length
    let increment := max inbytesleft 4
    let target1 := target ++ List.replicate increment dflt
    let outbl1 := outbytesleft + increment * w
    match icvDec dec w inbuf target1 used outbl1 with
    | (inbuf2, target2, used2, outbl2, st) =>
      match st with
      | .ok => some (.ok (target2.take (target2.length - outbl2 / w)))
      | .fail e =>
        if e = e2bigCode then fromUTF8Go dec w dflt strerror fuel inbuf2 target2 used2 outbl2
        else some (.error (errText strerror e))

/-- fromUTF8 on a byte range, appending into target0 (which need not be
empty): the write cursor starts at character index 0 (outbuf starts null, so
bytesused is 0 on the first iteration) and the output byte budget starts at
0, with fuel one more than the input byte count. -/
def fromUTF8Model (dec : List β → Except Nat (α × Nat)) (w : Nat) (dflt : α)
    (strerror : Nat → String) (inbuf : List β) (target0 : List α) :
    Option (Except String (List α)) :=
  fromUTF8Go dec w dflt strerror (inbuf.length + 1) inbuf target0 0 0

/-- Bytes produced by encoding a character list character by character
(engine failures contribute nothing; only used under a GoodEnc hypothesis). -/
def encBytes (enc : α → Except Nat (List β)) : List α → List β
  | [] => []
  | c :: cs => (match enc c with | .ok es => es | .error _ => []) ++ encBytes enc cs

/-- Every character of S is encodable, to between 1 and 4 bytes (the UTF-8
width range: a representable character yields at least one and at most four
bytes). -/
def GoodEnc (enc : α → Except Nat (List β)) (S : List α) : Prop :=
  ∀ c ∈ S, ∃ es, enc c = .ok es ∧ 1 ≤ es.length ∧ es.length ≤ 4

/-- The decode direction inverts the encode direction: decoding a stream that
starts with the encoding of c yields c and consumes exactly that encoding. -/
def LeftInv (enc : α → Except Nat (List β)) (dec : List β → Except Nat (α × Nat)) : Prop :=
  ∀ c es bs, enc c = .ok es → dec (es ++ bs) = .ok (c, es.length - 1)

/-- Engine encode failures never use the E2BIG code (E2BIG is reserved for
the output-space condition detected by the conversion call itself). -/
def EncNoE2big (enc : α → Except Nat (List β)) : Prop :=
  ∀ c e, enc c = .error e → e ≠ e2bigCode

/-- Engine decode failures never use the E2BIG code. -/
def DecNoE2big (dec : List β → Except Nat (α × Nat)) : Prop :=
  ∀ l e, dec l = .error e → e ≠ e2bigCode

/-- Every successful encode is at most 4 bytes wide (UTF-8 output width). -/
def EncLe4 (enc : α → Except Nat (List β)) : Prop :=
  ∀ c es, enc c = .ok es → es.length ≤ 4

/-- Write the characters of S into tgt at consecutive indices starting at
`used` (the effect of the engine filling the reserved window). -/
def writeAt (tgt : List α) (used : Nat) : List α → List α
  | [] => tgt
  | c :: cs => writeAt (tgt.set used c) (used + 1) cs

/-- The windows granted by successive buffer requests are contiguous: each
request extends from the cursor position `pos` reached by the previous
window. -/
def chainedFrom (pos : Nat) : List GrowReq → Prop
  | [] => True
  | g :: gs => g.windowStart = pos ∧ chainedFrom (pos + g.produced) gs

/-- Errors crossing the descriptor-management interface:
IllegalConversionException (thrown by createDescriptors),
IconvInitializationException (the constructor rethrows the former under this
type) and ThreadSyscallException (pthread_setspecific failure, carrying the
returned error code). -/
inductive IcErr where
  | illegal : String → IcErr
  | iconvInit : String → IcErr
  | threadSyscall : Nat → IcErr
deriving DecidableEq

/-- State of the iconv engine and of the calling thread: the next fresh
descriptor handle, the list of currently open descriptors, and the calling
thread's pthread_getspecific slot for the converter's key (null, or a stored
pair of descriptors). -/
structure IcvWorld where
  nextHandle : Nat
  openH : List Nat
  slot : Option (Nat × Nat)
deriving DecidableEq

/-- iconv_open(tocode, fromcode): succeeds exactly when the engine supports
the direction, returning a fresh open handle; on failure returns
iconv_t(-1) (modelled as none) and leaves the open-descriptor set
unchanged. -/
def iconvOpen (canOpen : String → String → Bool) (tocode fromcode : String)
    (w : IcvWorld) : Option Nat × IcvWorld :=
  if canOpen tocode fromcode then
    (some w.nextHandle,
     { w with nextHandle := w.nextHandle + 1, openH := w.nextHandle :: w.openH })
  else (none, w)

/-- iconv_close(h): the handle stops being open. -/
def iconvClose (h : Nat) (w : IcvWorld) : IcvWorld :=
  { w with openH := w.openH.erase h }

/-- IconvStringConverter::close on a pair: close the first then the second
descriptor. -/
def closePair (p : Nat × Nat) (w : IcvWorld) : IcvWorld :=
  iconvClose p.2 (iconvClose p.1 w)

/-- IconvStringConverter::createDescriptors: open UTF-8 -> internalCode
(cdp.first), then internalCode -> UTF-8 (cdp.second); on a first-direction
failure throw IllegalConversionException; on a second-direction failure
close the already-opened first descriptor before throwing. -/
def createDescriptors (canOpen : String → String → Bool) (internalCode : String)
    (w : IcvWorld) : Except IcErr (Nat × Nat) × IcvWorld :=
  match iconvOpen canOpen internalCode "UTF-8" w with
  | (none, w1) =>
    (.error (.illegal ("iconv cannot convert from UTF-8 to " ++ internalCode)), w1)
  | (some h1, w1) =>
    match iconvOpen canOpen "UTF-8" internalCode w1 with
    | (none, w2) =>
      (.error (.illegal ("iconv cannot convert from " ++ internalCode ++ " to UTF-8")),
       iconvClose h1 w2)
    | (some h2, w2) => (.ok (h1, h2), w2)

/-- The encoding-validation part of the IconvStringConverter constructor:
close(createDescriptors()), rethrowing IllegalConversionException as
IconvInitializationException with the same reason. -/
def constructorModel (canOpen : String → String → Bool) (internalCode : String)
    (w : IcvWorld) : Except IcErr Unit × IcvWorld :=
  match createDescriptors canOpen internalCode w with
  | (.error (.illegal r), w1) => (.error (.iconvInit r), w1)
  | (.error e, w1) => (.error e, w1)
  | (.ok p, w1) => (.ok (), closePair p w1)

/-- IconvStringConverter::getDescriptors: return the calling thread's
registered pair if there is one; otherwise create a fresh pair, register it
with pthread_setspecific (whose success is the parameter setOk; the nonzero
return code on failure is modelled as 1), and throw ThreadSyscallException
when registration fails -- without closing the fresh pair. -/
def getDescriptors (canOpen : String → String → Bool) (internalCode : String)
    (setOk : Bool) (w : IcvWorld) : Except IcErr (Nat × Nat) × IcvWorld :=
  match w.slot with
  | some p => (.ok p, w)
  | none =>
    match createDescriptors canOpen internalCode w with
    | (.error e, w1) => (.error e, w1)
    | (.ok cdp, w1) =>
      if setOk then (.ok cdp, { w1 with slot := some cdp })
      else (.error (.threadSyscall 1), w1)

/-- A registered slot is never a partial pair: whenever the thread slot is
occupied, both stored descriptors are open. -/
def slotValid (w : IcvWorld) : Prop :=
  ∀ p : Nat × Nat, w.slot = some p → p.1 ∈ w.openH ∧ p.2 ∈ w.openH

/-- Handle bookkeeping: every open descriptor is below the next fresh
handle. -/
def wfWorld (w : IcvWorld) : Prop :=
  ∀ h ∈ w.openH, h < w.nextHandle

/-- A concrete one-byte-per-character engine encode direction, used to
instantiate theorems on concrete runs. -/
def encId : Nat → Except Nat (List Nat) := fun c => .ok [c]

/-- The matching decode direction of encId: one byte in, one character out. -/
def decId : List Nat → Except Nat (Nat × Nat) := fun l =>
  match l with
  | b :: _ => .ok (b, 0)
  | [] => .error 84

/-- A concrete always-failing encode direction (errno 84, EILSEQ). -/
def encFail : Nat → Except Nat (List Nat) := fun _ => .error 84

/-- A concrete always-failing decode direction (errno 84, EILSEQ). -/
def decFail : List Nat → Except Nat (Nat × Nat) := fun _ => .error 84

/-- A concrete strerror table for concrete runs. -/
def strerrDemo : Nat → String := fun _ => "bad multibyte sequence"

/-- Encoding a concatenation concatenates the encodings. -/
theorem encBytes_append (enc : α → Except Nat (List β)) (l1 l2 : List α) :
    encBytes enc (l1 ++ l2) = encBytes enc l1 ++ encBytes enc l2 := by
  induction l1 with
  | nil => simp [encBytes]
  | cons c cs ih => simp [encBytes, ih]

/-- The remaining input of one engine call never exceeds the input. -/
theorem icvEnc_len (enc : α → Except Nat (List β)) :
    ∀ input win outleft, (icvEnc enc input win outleft).1.length ≤ input.length := by
  intro input
  induction input with
  | nil => intro win outleft; simp [icvEnc]
  | cons c cs ih =>
    intro win outleft
    simp only [icvEnc]
    cases hc : enc c with
    | error e => simp
    | ok es =>
      by_cases hlt : outleft < es.length
      · simp [hlt]
      · simp only [hlt, if_false]
        exact le_trans (ih (win ++ es) (outleft - es.length)) (Nat.le_succ cs.length)

/-- When an engine call fails with a code other than E2BIG, the code comes
from the engine rejecting the character at the head of the remaining
input. -/
theorem icvEnc_fail_source (enc : α → Except Nat (List β)) :
    ∀ input win outleft i1 ob ol e,
      icvEnc enc input win outleft = (i1, ob, ol, .fail e) → e ≠ e2bigCode →
      ∃ c cs2, i1 = c :: cs2 ∧ enc c = .error e := by
  intro input
  induction input with
  | nil => intro win outleft i1 ob ol e h; simp [icvEnc] at h
  | cons c cs ih =>
    intro win outleft i1 ob ol e h hne
    cases hc : enc c with
    | error e0 =>
      have hstep : icvEnc enc (c :: cs) win outleft = (c :: cs, win, outleft, .fail e0) := by
        simp [icvEnc, hc]
      rw [hstep] at h
      simp only [Prod.mk.injEq] at h
      obtain ⟨h1, _, _, h4⟩ := h
      exact ⟨c, cs, h1.symm, (IcvStatus.fail.inj h4) ▸ hc⟩
    | ok es =>
      by_cases hlt : outleft < es.length
      · have hstep : icvEnc enc (c :: cs) win outleft =
            (c :: cs, win, outleft, .fail e2bigCode) := by
          simp [icvEnc, hc, hlt]
        rw [hstep] at h
        simp only [Prod.mk.injEq] at h
        exact absurd (IcvStatus.fail.inj h.2.2.2).symm hne
      · have hstep : icvEnc enc (c :: cs) win outleft =
            icvEnc enc cs (win ++ es) (outleft - es.length) := by
          simp [icvEnc, hc, hlt]
        rw [hstep] at h
        exact ih (win ++ es) (outleft - es.length) i1 ob ol e h hne

/-- A shortfall reported with at least 4 bytes of window and a 4-byte-wide
engine means at least one character was consumed. -/
theorem icvEnc_e2big_progress (enc : α → Except Nat (List β)) (h4 : EncLe4 enc)
    (hne : EncNoE2big enc) :
    ∀ input win outleft i1 ob ol, 4 ≤ outleft →
      icvEnc enc input win outleft = (i1, ob, ol, .fail e2bigCode) →
      i1.length < input.length := by
  intro input
  cases input with
  | nil => intro win outleft i1 ob ol hge h; simp [icvEnc] at h
  | cons c cs =>
    intro win outleft i1 ob ol hge h
    cases hc : enc c with
    | error e0 =>
      have hstep : icvEnc enc (c :: cs) win outleft = (c :: cs, win, outleft, .fail e0) := by
        simp [icvEnc, hc]
      rw [hstep] at h
      simp only [Prod.mk.injEq] at h
      exact absurd (IcvStatus.fail.inj h.2.2.2) (hne c e0 hc)
    | ok es =>
      by_cases hlt : outleft < es.length
      · exact absurd (lt_of_le_of_lt hge hlt) (not_lt_of_ge (h4 c es hc))
      · have hstep : icvEnc enc (c :: cs) win outleft =
            icvEnc enc cs (win ++ es) (outleft - es.length) := by
          simp [icvEnc, hc, hlt]
        rw [hstep] at h
        have hlen := icvEnc_len enc cs (win ++ es) (outleft - es.length)
        rw [h] at hlen
        exact lt_of_le_of_lt hlen (Nat.lt_succ_self cs.length)

/-- Trace soundness of the toUTF8 loop: every run extends the entry trace by
records whose request is max(remaining, 4), hence at least 4, with windows
chained from the entry write cursor. -/
theorem toUTF8Go_trace (enc : α → Except Nat (List β)) (w : Nat)
    (strerror : Nat → String) :
    ∀ fuel input written tr0 r tr,
      toUTF8Go enc w strerror fuel input written tr0 = some (r, tr) →
      ∃ trNew, tr = tr0 ++ trNew ∧
        (∀ g ∈ trNew, g.request = max g.remaining 4 ∧ 4 ≤ g.request) ∧
        chainedFrom written.length trNew := by
  intro fuel
  induction fuel with
  | zero => intro input written tr0 r tr h; simp [toUTF8Go] at h
  | succ f ih =>
    intro input written tr0 r tr h
    rcases hscrut : icvEnc enc input [] (max (input.length * w) 4) with
      ⟨input1, outBytes, ol, st⟩
    cases st with
    | ok =>
      have hstep : toUTF8Go enc w strerror (f + 1) input written tr0 =
          some (.ok (written ++ outBytes, (written ++ outBytes).length),
            tr0 ++ [⟨max (input.length * w) 4, input.length * w, written.length,
              outBytes.length⟩]) := by
        simp [toUTF8Go, hscrut]
      rw [hstep] at h
      simp only [Option.some.injEq, Prod.mk.injEq] at h
      refine ⟨[⟨max (input.length * w) 4, input.length * w, written.length,
        outBytes.length⟩], h.2.symm, ?_, ?_⟩
      · intro g hg
        rcases List.mem_singleton.mp hg with rfl
        exact ⟨rfl, le_max_right _ _⟩
      · exact ⟨rfl, trivial⟩
    | fail e =>
      by_cases he : e = e2bigCode
      · subst he
        have hstep : toUTF8Go enc w strerror (f + 1) input written tr0 =
            toUTF8Go enc w strerror f input1 (written ++ outBytes)
              (tr0 ++ [⟨max (input.length * w) 4, input.length * w, written.length,
                outBytes.length⟩]) := by
          simp [toUTF8Go, hscrut]
        rw [hstep] at h
        obtain ⟨trNew1, htr, hprops, hchain⟩ := ih input1 (written ++ outBytes) _ r tr h
        refine ⟨⟨max (input.length * w) 4, input.length * w, written.length,
          outBytes.length⟩ :: trNew1, ?_, ?_, ?_⟩
        · rw [htr]; simp
        · intro g hg
          rcases List.mem_cons.mp hg with rfl | hg2
          · exact ⟨rfl, le_max_right _ _⟩
          · exact hprops g hg2
        · refine ⟨rfl, ?_⟩
          simpa using hchain
      · have hstep : toUTF8Go enc w strerror (f + 1) input written tr0 =
            some (.error (errText strerror e),
              tr0 ++ [⟨max (input.length * w) 4, input.length * w, written.length,
                outBytes.length⟩]) := by
          simp [toUTF8Go, hscrut, he]
        rw [hstep] at h
        simp only [Option.some.injEq, Prod.mk.injEq] at h
        refine ⟨[⟨max (input.length * w) 4, input.length * w, written.length,
          outBytes.length⟩], h.2.symm, ?_, ?_⟩
        · intro g hg
          rcases List.mem_singleton.mp hg with rfl
          exact ⟨rfl, le_max_right _ _⟩
        · exact ⟨rfl, trivial⟩

/-- C6: for an empty input byte range, fromUTF8 leaves the destination
sequence equal to its value on entry -- in particular an empty result when
the destination started empty -- and does not grow the destination. -/
theorem fromUTF8_empty_input {α β : Type} (dec : List β → Except Nat (α × Nat))
    (w : Nat) (hw : 0 < w) (dflt : α) (strerror : Nat → String) (target0 : List α) :
    fromUTF8Model dec w dflt strerror [] target0 = some (.ok target0) := by
  have h4 : 4 * w / w = 4 := Nat.mul_div_cancel 4 hw
  simp only [fromUTF8Model, fromUTF8Go, List.length_nil, Nat.zero_add, Nat.zero_max,
    icvDec, List.length_append, List.length_replicate, h4]
  simp [List.take_left]

/-- C6 witness: concrete instance with a nonempty initial destination. -/
theorem fromUTF8_empty_input_witness :
    fromUTF8Model (fun l => match l with
      | b :: _ => Except.ok (b, 0)
      | [] => Except.error 84) 1 (0 : Nat) (fun _ => "errtext") [] [9, 8] =
      some (.ok [9, 8]) :=
  fromUTF8_empty_input _ 1 (by decide) 0 _ [9, 8]

/-- C7: for an empty input range, toUTF8 executes its loop exactly once,
requesting the minimum capacity of 4 bytes at window offset 0, the engine
reports immediate completion, zero output bytes are written, and the
returned cursor (offset 0) equals the start of the granted window. -/
theorem toUTF8_empty_input {α β : Type} (enc : α → Except Nat (List β))
    (w : Nat) (strerror : Nat → String) :
    toUTF8Model enc w strerror [] =
      some (.ok ([], 0), [⟨4, 0, 0, 0⟩]) := by
  simp [toUTF8Model, toUTF8Go, icvEnc]

/-- C3: when the engine cannot open one of the two conversion directions,
construction fails with IconvInitializationException carrying the
human-readable diagnostic, and the set of open descriptors is exactly what
it was before the call: in particular, when the UTF-8-to-internal direction
opens but the internal-to-UTF-8 direction fails, the already-opened
descriptor is closed before the error propagates. -/
theorem constructor_unsupported_no_leak (canOpen : String → String → Bool)
    (ic : String) (w0 : IcvWorld)
    (hfail : canOpen ic "UTF-8" = false ∨ canOpen "UTF-8" ic = false) :
    ∃ reason w1, constructorModel canOpen ic w0 = (.error (.iconvInit reason), w1) ∧
      w1.openH = w0.openH := by
  by_cases h1 : canOpen ic "UTF-8" = true
  · have h2 : canOpen "UTF-8" ic = false := by
      rcases hfail with h | h
      · rw [h1] at h; cases h
      · exact h
    refine ⟨"iconv cannot convert from " ++ ic ++ " to UTF-8",
      { w0 with nextHandle := w0.nextHandle + 1 }, ?_, ?_⟩
    · simp [constructorModel, createDescriptors, iconvOpen, iconvClose, h1, h2]
    · rfl
  · have h1f : canOpen ic "UTF-8" = false := by
      cases hcase : canOpen ic "UTF-8"
      · rfl
      · exact absurd hcase h1
    exact ⟨"iconv cannot convert from UTF-8 to " ++ ic, w0,
      by simp [constructorModel, createDescriptors, iconvOpen, h1f], rfl⟩

/-- C3 witness: a converter construction over an engine that rejects the
internal-to-UTF-8 direction (the UTF-8-to-internal direction opens). -/
theorem constructor_unsupported_no_leak_witness :
    ∃ reason w1,
      constructorModel (fun t _ => t == "LATIN-X") "LATIN-X" ⟨0, [], none⟩ =
        (.error (.iconvInit reason), w1) ∧ w1.openH = IcvWorld.openH ⟨0, [], none⟩ :=
  constructor_unsupported_no_leak (fun t _ => t == "LATIN-X") "LATIN-X" ⟨0, [], none⟩
    (Or.inr (by decide))

/-- C4: the per-thread slot holds both descriptors or neither (slotValid is
preserved by every getDescriptors call); once a pair is registered, every
subsequent getDescriptors call on that thread returns that same pair with
the world unchanged; and a fresh pair is opened only when no pair is
registered. -/
theorem getDescriptors_pool (canOpen : String → String → Bool) (ic : String)
    (setOk : Bool) (w : IcvWorld) (hv : slotValid w) (hwf : wfWorld w) :
    (∀ p, w.slot = some p → getDescriptors canOpen ic setOk w = (.ok p, w)) ∧
    (w.slot = none → canOpen ic "UTF-8" = true → canOpen "UTF-8" ic = true →
      setOk = true →
      ∃ p w1, getDescriptors canOpen ic setOk w = (.ok p, w1) ∧
        w1.slot = some p ∧ p.1 ∉ w.openH ∧ p.2 ∉ w.openH) ∧
    slotValid (getDescriptors canOpen ic setOk w).2 := by
  refine ⟨?_, ?_, ?_⟩
  · intro p hp
    simp [getDescriptors, hp]
  · intro hnone h1 h2 hset
    subst hset
    refine ⟨(w.nextHandle, w.nextHandle + 1),
      {
        nextHandle := w.nextHandle + 1 + 1,
        openH := (w.nextHandle + 1) :: w.nextHandle :: w.openH,
        slot := some (w.nextHandle, w.nextHandle + 1) }, ?_, rfl, ?_, ?_⟩
    · simp [getDescriptors, createDescriptors, iconvOpen, hnone, h1, h2]
    · intro hmem
      exact absurd (hwf _ hmem) (by omega)
    · intro hmem
      exact absurd (hwf _ hmem) (by omega)
  · cases hslot : w.slot with
    | some p => simp [getDescriptors, hslot]; exact hv
    | none =>
      by_cases h1 : canOpen ic "UTF-8" = true
      · by_cases h2 : canOpen "UTF-8" ic = true
        · cases setOk
          · simp [getDescriptors, createDescriptors, iconvOpen, hslot, h1, h2, slotValid]
          · simp [getDescriptors, createDescriptors, iconvOpen, hslot, h1, h2, slotValid]
        · have h2f : canOpen "UTF-8" ic = false := by
            cases hc : canOpen "UTF-8" ic
            · rfl
            · exact absurd hc h2
          simp [getDescriptors, createDescriptors, iconvOpen, iconvClose, hslot, h1, h2f,
            slotValid]
      · have h1f : canOpen ic "UTF-8" = false := by
          cases hc : canOpen ic "UTF-8"
          · rfl
          · exact absurd hc h1
        simp [getDescriptors, createDescriptors, iconvOpen, hslot, h1f, slotValid]

/-- C4 witness: a thread that already holds the pair (0, 1) gets it back
unchanged, and the slot invariant is preserved. -/
theorem getDescriptors_pool_witness :
    getDescriptors (fun _ _ => true) "L1" true ⟨2, [1, 0], some (0, 1)⟩ =
      (.ok (0, 1), ⟨2, [1, 0], some (0, 1)⟩) := by
  have hv : slotValid ⟨2, [1, 0], some (0, 1)⟩ := by
    intro p hp
    cases hp
    exact ⟨by decide, by decide⟩
  have hwf : wfWorld ⟨2, [1, 0], some (0, 1)⟩ := by
    unfold wfWorld
    decide
  exact (getDescriptors_pool (fun _ _ => true) "L1" true ⟨2, [1, 0], some (0, 1)⟩
    hv hwf).1 (0, 1) rfl

/-- C10: when no session pair is registered and pthread_setspecific fails,
getDescriptors raises ThreadSyscallException without closing the two
descriptors it just opened: both remain in the open set and the slot stays
empty. -/
theorem getDescriptors_setspecific_failure_leaks (canOpen : String → String → Bool)
    (ic : String) (w : IcvWorld) (h0 : w.slot = none)
    (h1 : canOpen ic "UTF-8" = true) (h2 : canOpen "UTF-8" ic = true) :
    ∃ w1, getDescriptors canOpen ic false w = (.error (.threadSyscall 1), w1) ∧
      w1.slot = none ∧ w.nextHandle ∈ w1.openH ∧ w.nextHandle + 1 ∈ w1.openH := by
  refine ⟨{ w with
              nextHandle := w.nextHandle + 1 + 1,
              openH := (w.nextHandle + 1) :: w.nextHandle :: w.openH }, ?_, h0, ?_, ?_⟩
  · simp [getDescriptors, createDescriptors, iconvOpen, h0, h1, h2]
  · simp
  · simp

/-- The remaining input of one decode engine call never exceeds the input;
n is an upper bound on the input length used for the induction. -/
theorem icvDec_len {α β : Type} (dec : List β → Except Nat (α × Nat)) (w : Nat) :
    ∀ n inbuf (tgt : List α) used outleft, inbuf.length ≤ n →
      (icvDec dec w inbuf tgt used outleft).1.length ≤ inbuf.length := by
  intro n
  induction n with
  | zero =>
    intro inbuf tgt used outleft hn
    have hnil : inbuf = [] := List.length_eq_zero.mp (Nat.le_zero.mp hn)
    subst hnil
    simp [icvDec]
  | succ n ih =>
    intro inbuf tgt used outleft hn
    cases inbuf with
    | nil => simp [icvDec]
    | cons b bs =>
      have hbs : bs.length ≤ n := by
        simp only [List.length_cons] at hn
        omega
      cases hd : dec (b :: bs) with
      | error e =>
        have hstep : icvDec dec w (b :: bs) tgt used outleft =
            (b :: bs, tgt, used, outleft, .fail e) := by
          simp [icvDec, hd]
        simp [hstep]
      | ok ck =>
        rcases ck with ⟨c, k⟩
        by_cases hlt : outleft < w
        · have hstep : icvDec dec w (b :: bs) tgt used outleft =
              (b :: bs, tgt, used, outleft, .fail e2bigCode) := by
            simp [icvDec, hd, hlt]
          simp [hstep]
        · have hstep : icvDec dec w (b :: bs) tgt used outleft =
              icvDec dec w (bs.drop k) (tgt.set used c) (used + 1) (outleft - w) := by
            simp [icvDec, hd, hlt]
          rw [hstep]
          have h1 := ih (bs.drop k) (tgt.set used c) (used + 1) (outleft - w)
            (by rw [List.length_drop]; omega)
          have h2 : (bs.drop k).length ≤ bs.length := by
            rw [List.length_drop]; omega
          simp only [List.length_cons]
          omega

/-- When a decode engine call fails with a code other than E2BIG, the engine
rejected the remaining input it reports. -/
theorem icvDec_fail_source {α β : Type} (dec : List β → Except Nat (α × Nat)) (w : Nat) :
    ∀ n inbuf (tgt : List α) used outleft i1 t1 u1 o1 e, inbuf.length ≤ n →
      icvDec dec w inbuf tgt used outleft = (i1, t1, u1, o1, .fail e) →
      e ≠ e2bigCode → dec i1 = .error e := by
  intro n
  induction n with
  | zero =>
    intro inbuf tgt used outleft i1 t1 u1 o1 e hn h hne
    have hnil : inbuf = [] := List.length_eq_zero.mp (Nat.le_zero.mp hn)
    subst hnil
    simp [icvDec] at h
  | succ n ih =>
    intro inbuf tgt used outleft i1 t1 u1 o1 e hn h hne
    cases inbuf with
    | nil => simp [icvDec] at h
    | cons b bs =>
      have hbs : bs.length ≤ n := by
        simp only [List.length_cons] at hn
        omega
      cases hd : dec (b :: bs) with
      | error e0 =>
        have hstep : icvDec dec w (b :: bs) tgt used outleft =
            (b :: bs, tgt, used, outleft, .fail e0) := by
          simp [icvDec, hd]
        rw [hstep] at h
        simp only [Prod.mk.injEq] at h
        obtain ⟨h1, _, _, _, h5⟩ := h
        rw [← h1, hd, IcvStatus.fail.inj h5]
      | ok ck =>
        rcases ck with ⟨c, k⟩
        by_cases hlt : outleft < w
        · have hstep : icvDec dec w (b :: bs) tgt used outleft =
              (b :: bs, tgt, used, outleft, .fail e2bigCode) := by
            simp [icvDec, hd, hlt]
          rw [hstep] at h
          simp only [Prod.mk.injEq] at h
          exact absurd (IcvStatus.fail.inj h.2.2.2.2).symm hne
        · have hstep : icvDec dec w (b :: bs) tgt used outleft =
              icvDec dec w (bs.drop k) (tgt.set used c) (used + 1) (outleft - w) := by
            simp [icvDec, hd, hlt]
          rw [hstep] at h
          exact ih (bs.drop k) (tgt.set used c) (used + 1) (outleft - w) i1 t1 u1 o1 e
            (by rw [List.length_drop]; omega) h hne

/-- A decode shortfall reported with at least w bytes of budget means at
least one input byte was consumed. -/
theorem icvDec_e2big_progress {α β : Type} (dec : List β → Except Nat (α × Nat))
    (w : Nat) (hnd : DecNoE2big dec) :
    ∀ inbuf (tgt : List α) used outleft i1 t1 u1 o1, w ≤ outleft →
      icvDec dec w inbuf tgt used outleft = (i1, t1, u1, o1, .fail e2bigCode) →
      i1.length < inbuf.length := by
  intro inbuf tgt used outleft i1 t1 u1 o1 hge h
  cases inbuf with
  | nil => simp [icvDec] at h
  | cons b bs =>
    cases hd : dec (b :: bs) with
    | error e0 =>
      have hstep : icvDec dec w (b :: bs) tgt used outleft =
          (b :: bs, tgt, used, outleft, .fail e0) := by
        simp [icvDec, hd]
      rw [hstep] at h
      simp only [Prod.mk.injEq] at h
      exact absurd (IcvStatus.fail.inj h.2.2.2.2) (hnd (b :: bs) e0 hd)
    | ok ck =>
      rcases ck with ⟨c, k⟩
      by_cases hlt : outleft < w
      · omega
      · have hstep : icvDec dec w (b :: bs) tgt used outleft =
            icvDec dec w (bs.drop k) (tgt.set used c) (used + 1) (outleft - w) := by
          simp [icvDec, hd, hlt]
        rw [hstep] at h
        have hlen := icvDec_len dec w (bs.drop k).length (bs.drop k) (tgt.set used c)
          (used + 1) (outleft - w) (le_refl _)
        have hlen2 : i1.length ≤ (bs.drop k).length := by
          rw [h] at hlen
          exact hlen
        simp only [List.length_cons]
        rw [List.length_drop] at hlen2
        omega

/-- toUTF8 termination: with fuel exceeding the character count, the outer
loop always resolves (success or failure), for any engine that encodes into
at most 4 bytes and reserves E2BIG for the space condition. -/
theorem toUTF8Go_total {α β : Type} (enc : α → Except Nat (List β)) (w : Nat)
    (strerror : Nat → String) (h4 : EncLe4 enc) (hne : EncNoE2big enc) :
    ∀ fuel input (written : List β) tr0, input.length < fuel →
      ∃ r, toUTF8Go enc w strerror fuel input written tr0 = some r := by
  intro fuel
  induction fuel with
  | zero => intro input written tr0 h; omega
  | succ f ih =>
    intro input written tr0 hlt
    rcases hscrut : icvEnc enc input [] (max (input.length * w) 4) with
      ⟨input1, outBytes, ol, st⟩
    cases st with
    | ok =>
      have hstep : toUTF8Go enc w strerror (f + 1) input written tr0 =
          some (.ok (written ++ outBytes, (written ++ outBytes).length),
            tr0 ++ [⟨max (input.length * w) 4, input.length * w, written.length,
              outBytes.length⟩]) := by
        simp [toUTF8Go, hscrut]
      exact ⟨_, hstep⟩
    | fail e =>
      by_cases he : e = e2bigCode
      · subst he
        have hprog := icvEnc_e2big_progress enc h4 hne input [] (max (input.length * w) 4)
          input1 outBytes ol (le_max_right _ _) hscrut
        obtain ⟨r, hr⟩ := ih input1 (written ++ outBytes)
          (tr0 ++ [⟨max (input.length * w) 4, input.length * w, written.length,
            outBytes.length⟩]) (by omega)
        refine ⟨r, ?_⟩
        have hstep : toUTF8Go enc w strerror (f + 1) input written tr0 =
            toUTF8Go enc w strerror f input1 (written ++ outBytes)
              (tr0 ++ [⟨max (input.length * w) 4, input.length * w, written.length,
                outBytes.length⟩]) := by
          simp [toUTF8Go, hscrut]
        rw [hstep]
        exact hr
      · have hstep : toUTF8Go enc w strerror (f + 1) input written tr0 =
            some (.error (errText strerror e),
              tr0 ++ [⟨max (input.length * w) 4, input.length * w, written.length,
                outBytes.length⟩]) := by
          simp [toUTF8Go, hscrut, he]
        exact ⟨_, hstep⟩

/-- fromUTF8 termination: with fuel exceeding the byte count, the outer loop
always resolves, for any engine that reserves E2BIG for the space
condition. -/
theorem fromUTF8Go_total {α β : Type} (dec : List β → Except Nat (α × Nat)) (w : Nat)
    (dflt : α) (strerror : Nat → String) (hnd : DecNoE2big dec) :
    ∀ fuel inbuf (target : List α) used outbl, inbuf.length < fuel →
      ∃ r, fromUTF8Go dec w dflt strerror fuel inbuf target used outbl = some r := by
  intro fuel
  induction fuel with
  | zero => intro inbuf target used outbl h; omega
  | succ f ih =>
    intro inbuf target used outbl hlt
    rcases hscrut : icvDec dec w inbuf (target ++ List.replicate (max inbuf.length 4) dflt)
      used (outbl + max inbuf.length 4 * w) with ⟨inbuf2, target2, used2, outbl2, st⟩
    cases st with
    | ok =>
      have hstep : fromUTF8Go dec w dflt strerror (f + 1) inbuf target used outbl =
          some (.ok (target2.take (target2.length - outbl2 / w))) := by
        simp [fromUTF8Go, hscrut]
      exact ⟨_, hstep⟩
    | fail e =>
      by_cases he : e = e2bigCode
      · subst he
        have hwle : w ≤ outbl + max inbuf.length 4 * w := by
          have h1 : 1 * w ≤ max inbuf.length 4 * w :=
            Nat.mul_le_mul_right w (le_trans (by omega) (le_max_right inbuf.length 4))
          omega
        have hprog := icvDec_e2big_progress dec w hnd inbuf
          (target ++ List.replicate (max inbuf.length 4) dflt) used
          (outbl + max inbuf.length 4 * w) inbuf2 target2 used2 outbl2 hwle hscrut
        obtain ⟨r, hr⟩ := ih inbuf2 target2 used2 outbl2 (by omega)
        refine ⟨r, ?_⟩
        have hstep : fromUTF8Go dec w dflt strerror (f + 1) inbuf target used outbl =
            fromUTF8Go dec w dflt strerror f inbuf2 target2 used2 outbl2 := by
          simp [fromUTF8Go, hscrut]
        rw [hstep]
        exact hr
      · have hstep : fromUTF8Go dec w dflt strerror (f + 1) inbuf target used outbl =
            some (.error (errText strerror e)) := by
          simp [fromUTF8Go, hscrut, he]
        exact ⟨_, hstep⟩

/-- Any error surfaced by the toUTF8 loop names a non-E2BIG engine failure
code and carries its errText message. -/
theorem toUTF8Go_error_source {α β : Type} (enc : α → Except Nat (List β)) (w : Nat)
    (strerror : Nat → String) :
    ∀ fuel input (written : List β) tr0 m tr,
      toUTF8Go enc w strerror fuel input written tr0 = some (.error m, tr) →
      ∃ e, e ≠ e2bigCode ∧ (∃ c, enc c = .error e) ∧ m = errText strerror e := by
  intro fuel
  induction fuel with
  | zero => intro input written tr0 m tr h; simp [toUTF8Go] at h
  | succ f ih =>
    intro input written tr0 m tr h
    rcases hscrut : icvEnc enc input [] (max (input.length * w) 4) with
      ⟨input1, outBytes, ol, st⟩
    cases st with
    | ok =>
      have hstep : toUTF8Go enc w strerror (f + 1) input written tr0 =
          some (.ok (written ++ outBytes, (written ++ outBytes).length),
            tr0 ++ [⟨max (input.length * w) 4, input.length * w, written.length,
              outBytes.length⟩]) := by
        simp [toUTF8Go, hscrut]
      rw [hstep] at h
      simp at h
    | fail e =>
      by_cases he : e = e2bigCode
      · subst he
        have hstep : toUTF8Go enc w strerror (f + 1) input written tr0 =
            toUTF8Go enc w strerror f input1 (written ++ outBytes)
              (tr0 ++ [⟨max (input.length * w) 4, input.length * w, written.length,
                outBytes.length⟩]) := by
          simp [toUTF8Go, hscrut]
        rw [hstep] at h
        exact ih input1 (written ++ outBytes) _ m tr h
      · have hstep : toUTF8Go enc w strerror (f + 1) input written tr0 =
            some (.error (errText strerror e),
              tr0 ++ [⟨max (input.length * w) 4, input.length * w, written.length,
                outBytes.length⟩]) := by
          simp [toUTF8Go, hscrut, he]
        rw [hstep] at h
        simp only [Option.some.injEq, Prod.mk.injEq] at h
        obtain ⟨c, cs2, _, hc⟩ := icvEnc_fail_source enc input [] (max (input.length * w) 4)
          input1 outBytes ol e hscrut he
        exact ⟨e, he, ⟨c, hc⟩, (Except.error.inj h.1).symm⟩

/-- Any error surfaced by the fromUTF8 loop names a non-E2BIG engine failure
code and carries its errText message. -/
theorem fromUTF8Go_error_source {α β : Type} (dec : List β → Except Nat (α × Nat))
    (w : Nat) (dflt : α) (strerror : Nat → String) :
    ∀ fuel inbuf (target : List α) used outbl m,
      fromUTF8Go dec w dflt strerror fuel inbuf target used outbl = some (.error m) →
      ∃ e, e ≠ e2bigCode ∧ (∃ l, dec l = .error e) ∧ m = errText strerror e := by
  intro fuel
  induction fuel with
  | zero => intro inbuf target used outbl m h; simp [fromUTF8Go] at h
  | succ f ih =>
    intro inbuf target used outbl m h
    rcases hscrut : icvDec dec w inbuf (target ++ List.replicate (max inbuf.length 4) dflt)
      used (outbl + max inbuf.length 4 * w) with ⟨inbuf2, target2, used2, outbl2, st⟩
    cases st with
    | ok =>
      have hstep : fromUTF8Go dec w dflt strerror (f + 1) inbuf target used outbl =
          some (.ok (target2.take (target2.length - outbl2 / w))) := by
        simp [fromUTF8Go, hscrut]
      rw [hstep] at h
      simp at h
    | fail e =>
      by_cases he : e = e2bigCode
      · subst he
        have hstep : fromUTF8Go dec w dflt strerror (f + 1) inbuf target used outbl =
            fromUTF8Go dec w dflt strerror f inbuf2 target2 used2 outbl2 := by
          simp [fromUTF8Go, hscrut]
        rw [hstep] at h
        exact ih inbuf2 target2 used2 outbl2 m h
      · have hstep : fromUTF8Go dec w dflt strerror (f + 1) inbuf target used outbl =
            some (.error (errText strerror e)) := by
          simp [fromUTF8Go, hscrut, he]
        rw [hstep] at h
        simp only [Option.some.injEq] at h
        have hsrc := icvDec_fail_source dec w inbuf.length inbuf
          (target ++ List.replicate (max inbuf.length 4) dflt) used
          (outbl + max inbuf.length 4 * w) inbuf2 target2 used2 outbl2 e
          (le_refl _) hscrut he
        exact ⟨e, he, ⟨inbuf2, hsrc⟩, (Except.error.inj h).symm⟩

/-- C10 witness: a concrete failed registration leaves descriptors 0 and 1
open. -/
theorem getDescriptors_setspecific_failure_leaks_witness :
    ∃ w1, getDescriptors (fun _ _ => true) "L1" false ⟨0, [], none⟩ =
      (.error (.threadSyscall 1), w1) ∧
      w1.slot = none ∧ 0 ∈ w1.openH ∧ 0 + 1 ∈ w1.openH :=
  getDescriptors_setspecific_failure_leaks (fun _ _ => true) "L1" ⟨0, [], none⟩
    rfl rfl rfl

/-- With enough window space, one encode engine call converts the whole
input. -/
theorem icvEnc_ok {α β : Type} (enc : α → Except Nat (List β)) :
    ∀ S (win : List β) outleft, GoodEnc enc S → (encBytes enc S).length ≤ outleft →
      icvEnc enc S win outleft =
        ([], win ++ encBytes enc S, outleft - (encBytes enc S).length, .ok) := by
  intro S
  induction S with
  | nil => intro win outleft _ _; simp [icvEnc, encBytes]
  | cons c cs ih =>
    intro win outleft hgood hle
    obtain ⟨es, hc, h1len, h4len⟩ := hgood c (List.mem_cons_self c cs)
    have henc : encBytes enc (c :: cs) = es ++ encBytes enc cs := by
      simp [encBytes, hc]
    rw [henc] at hle ⊢
    rw [List.length_append] at hle ⊢
    have hnlt : ¬ outleft < es.length := by omega
    have hstep : icvEnc enc (c :: cs) win outleft =
        icvEnc enc cs (win ++ es) (outleft - es.length) := by
      simp [icvEnc, hc, hnlt]
    rw [hstep]
    have hgood2 : GoodEnc enc cs := fun x hx => hgood x (List.mem_cons_of_mem c hx)
    have hle2 : (encBytes enc cs).length ≤ outleft - es.length := by omega
    rw [ih (win ++ es) (outleft - es.length) hgood2 hle2]
    rw [List.append_assoc, Nat.sub_sub]

/-- With too little window space, one encode engine call converts a maximal
prefix and stops with E2BIG at the first character that does not fit. -/
theorem icvEnc_partial {α β : Type} (enc : α → Except Nat (List β)) :
    ∀ S (win : List β) outleft, GoodEnc enc S → outleft < (encBytes enc S).length →
      ∃ S1 c S2 esc, S = S1 ++ c :: S2 ∧ enc c = .ok esc ∧
        (encBytes enc S1).length ≤ outleft ∧
        outleft - (encBytes enc S1).length < esc.length ∧
        icvEnc enc S win outleft =
          (c :: S2, win ++ encBytes enc S1,
            outleft - (encBytes enc S1).length, .fail e2bigCode) := by
  intro S
  induction S with
  | nil => intro win outleft _ hlt; simp [encBytes] at hlt
  | cons c0 cs ih =>
    intro win outleft hgood hlt
    obtain ⟨es, hc, h1len, h4len⟩ := hgood c0 (List.mem_cons_self c0 cs)
    have henc : encBytes enc (c0 :: cs) = es ++ encBytes enc cs := by
      simp [encBytes, hc]
    by_cases hsp : outleft < es.length
    · refine ⟨[], c0, cs, es, rfl, hc, by simp [encBytes], by simpa [encBytes], ?_⟩
      have hstep : icvEnc enc (c0 :: cs) win outleft =
          (c0 :: cs, win, outleft, .fail e2bigCode) := by
        simp [icvEnc, hc, hsp]
      simpa [encBytes] using hstep
    · have hstep : icvEnc enc (c0 :: cs) win outleft =
          icvEnc enc cs (win ++ es) (outleft - es.length) := by
        simp [icvEnc, hc, hsp]
      have hlt2 : outleft - es.length < (encBytes enc cs).length := by
        rw [henc, List.length_append] at hlt
        omega
      obtain ⟨S1, c, S2, esc, hS, hcc, hle1, hlt1, heq⟩ :=
        ih (win ++ es) (outleft - es.length)
          (fun x hx => hgood x (List.mem_cons_of_mem _ hx)) hlt2
      have henc1 : encBytes enc (c0 :: S1) = es ++ encBytes enc S1 := by
        simp [encBytes, hc]
      refine ⟨c0 :: S1, c, S2, esc, by rw [hS, List.cons_append], hcc, ?_, ?_, ?_⟩
      · rw [henc1, List.length_append]
        omega
      · rw [henc1, List.length_append, ← Nat.sub_sub]
        exact hlt1
      · rw [hstep, heq, henc1, List.length_append]
        rw [List.append_assoc, Nat.sub_sub]

/-- The toUTF8 loop drives the engine to completion on any fully encodable
input: the bytes produced are exactly the concatenated per-character
encodings appended after the previously written bytes. -/
theorem toUTF8Go_encodes {α β : Type} (enc : α → Except Nat (List β)) (w : Nat)
    (strerror : Nat → String) :
    ∀ fuel S (written : List β) tr0, GoodEnc enc S → S.length < fuel →
      ∃ tr, toUTF8Go enc w strerror fuel S written tr0 =
        some (.ok (written ++ encBytes enc S, (written ++ encBytes enc S).length), tr) := by
  intro fuel
  induction fuel with
  | zero => intro S written tr0 _ h; omega
  | succ f ih =>
    intro S written tr0 hgood hflt
    by_cases hle : (encBytes enc S).length ≤ max (S.length * w) 4
    · have hrun := icvEnc_ok enc S [] (max (S.length * w) 4) hgood hle
      have hstep : toUTF8Go enc w strerror (f + 1) S written tr0 =
          some (.ok (written ++ encBytes enc S, (written ++ encBytes enc S).length),
            tr0 ++ [⟨max (S.length * w) 4, S.length * w, written.length,
              (encBytes enc S).length⟩]) := by
        simp [toUTF8Go, hrun]
      exact ⟨_, hstep⟩
    · push_neg at hle
      obtain ⟨S1, c, S2, esc, hS, hcc, hle1, hlt1, heq⟩ :=
        icvEnc_partial enc S [] (max (S.length * w) 4) hgood hle
      have hS1ne : S1 ≠ [] := by
        intro hnil
        subst hnil
        simp only [encBytes, List.length_nil, Nat.sub_zero] at hlt1
        have hcS : c ∈ S := by
          rw [hS]
          exact List.mem_cons_self c S2
        obtain ⟨es2, hc2, _, h4len⟩ := hgood c hcS
        rw [hcc] at hc2
        have hesc : esc = es2 := Except.ok.inj hc2
        subst hesc
        have := le_max_right (S.length * w) 4
        omega
      have hstep : toUTF8Go enc w strerror (f + 1) S written tr0 =
          toUTF8Go enc w strerror f (c :: S2) (written ++ encBytes enc S1)
            (tr0 ++ [⟨max (S.length * w) 4, S.length * w, written.length,
              (encBytes enc S1).length⟩]) := by
        simp [toUTF8Go, heq]
      have hgood2 : GoodEnc enc (c :: S2) := by
        intro x hx
        refine hgood x ?_
        rw [hS]
        exact List.mem_append_right S1 hx
      have hlen2 : (c :: S2).length < f := by
        have hlenS : S.length = S1.length + S2.length + 1 := by
          rw [hS, List.length_append, List.length_cons]
          omega
        have hS1pos : 0 < S1.length := List.length_pos.mpr hS1ne
        simp only [List.length_cons]
        omega
      obtain ⟨tr, htr⟩ := ih (c :: S2) (written ++ encBytes enc S1) _ hgood2 hlen2
      have hjoin : written ++ encBytes enc S1 ++ encBytes enc (c :: S2) =
          written ++ encBytes enc S := by
        rw [hS, encBytes_append, List.append_assoc]
      refine ⟨tr, ?_⟩
      rw [hstep, htr, hjoin]

/-- Writing characters over reserved slots does not change the storage
length. -/
theorem writeAt_length {α : Type} :
    ∀ (S tgt : List α) (u : Nat), (writeAt tgt u S).length = tgt.length := by
  intro S
  induction S with
  | nil => intro tgt u; simp [writeAt]
  | cons c cs ih => intro tgt u; rw [writeAt, ih, List.length_set]

/-- Setting the element at the cursor extends the written prefix by one. -/
theorem set_take_succ {α : Type} :
    ∀ (tgt : List α) (u : Nat) (c : α), u < tgt.length →
      (tgt.set u c).take (u + 1) = tgt.take u ++ [c] := by
  intro tgt
  induction tgt with
  | nil => intro u c h; simp at h
  | cons a l ih =>
    intro u c h
    cases u with
    | zero => simp
    | succ u2 =>
      have hu2 : u2 < l.length := by
        simp only [List.length_cons] at h
        omega
      have hcons : ((a :: l).set (u2 + 1) c).take (u2 + 2) =
          a :: (l.set u2 c).take (u2 + 1) := rfl
      rw [hcons, ih u2 c hu2]
      rfl

/-- Writing S at the cursor makes the first cursor + |S| characters equal to
the untouched prefix followed by S. -/
theorem writeAt_take {α : Type} :
    ∀ (S tgt : List α) (u : Nat), u + S.length ≤ tgt.length →
      (writeAt tgt u S).take (u + S.length) = tgt.take u ++ S := by
  intro S
  induction S with
  | nil => intro tgt u h; simp [writeAt]
  | cons c cs ih =>
    intro tgt u h
    have hu : u < tgt.length := by
      simp only [List.length_cons] at h
      omega
    have h2 : (u + 1) + cs.length ≤ (tgt.set u c).length := by
      rw [List.length_set]
      simp only [List.length_cons] at h
      omega
    have hrec := ih (tgt.set u c) (u + 1) h2
    have harr : u + (c :: cs).length = (u + 1) + cs.length := by
      simp only [List.length_cons]
      omega
    rw [writeAt, harr, hrec, set_take_succ tgt u c hu, List.append_assoc]
    rfl

/-- The encoding of a nonempty fully encodable list is nonempty. -/
theorem encBytes_ne_nil {α β : Type} (enc : α → Except Nat (List β)) (S : List α)
    (hgood : GoodEnc enc S) (hne : S ≠ []) : 0 < (encBytes enc S).length := by
  cases S with
  | nil => exact absurd rfl hne
  | cons c cs =>
    obtain ⟨es, hc, h1len, _⟩ := hgood c (List.mem_cons_self c cs)
    have henc : encBytes enc (c :: cs) = es ++ encBytes enc cs := by
      simp [encBytes, hc]
    rw [henc, List.length_append]
    omega

/-- With at least w output bytes per input character, one decode engine call
decodes the whole encoded input, writing the characters at consecutive
cursor positions. -/
theorem icvDec_ok {α β : Type} (enc : α → Except Nat (List β))
    (dec : List β → Except Nat (α × Nat)) (w : Nat) (hLI : LeftInv enc dec) :
    ∀ S (tgt : List α) used outleft, GoodEnc enc S → S.length * w ≤ outleft →
      icvDec dec w (encBytes enc S) tgt used outleft =
        ([], writeAt tgt used S, used + S.length, outleft - S.length * w, .ok) := by
  intro S
  induction S with
  | nil => intro tgt used outleft _ _; simp [encBytes, icvDec, writeAt]
  | cons c cs ih =>
    intro tgt used outleft hgood hle
    obtain ⟨es, hc, h1len, h4len⟩ := hgood c (List.mem_cons_self c cs)
    have henc : encBytes enc (c :: cs) = es ++ encBytes enc cs := by
      simp [encBytes, hc]
    cases hes : es with
    | nil =>
      rw [hes] at h1len
      simp at h1len
    | cons e0 es2 =>
      subst hes
      have hdec2 : dec (e0 :: (es2 ++ encBytes enc cs)) = .ok (c, es2.length) := by
        have := hLI c (e0 :: es2) (encBytes enc cs) hc
        simpa using this
      have hmul : cs.length * w + w ≤ outleft := by
        rw [List.length_cons, Nat.succ_mul] at hle
        exact hle
      have hnlt : ¬ outleft < w := by omega
      have hstep : icvDec dec w (e0 :: (es2 ++ encBytes enc cs)) tgt used outleft =
          icvDec dec w ((es2 ++ encBytes enc cs).drop es2.length) (tgt.set used c)
            (used + 1) (outleft - w) := by
        simp [icvDec, hdec2, hnlt]
      have hdrop : (es2 ++ encBytes enc cs).drop es2.length = encBytes enc cs :=
        List.drop_left es2 (encBytes enc cs)
      have hgood2 : GoodEnc enc cs := fun x hx => hgood x (List.mem_cons_of_mem c hx)
      have hle2 : cs.length * w ≤ outleft - w := by omega
      rw [henc, List.cons_append, hstep, hdrop,
        ih (tgt.set used c) (used + 1) (outleft - w) hgood2 hle2]
      simp only [Prod.mk.injEq, List.length_cons]
      refine ⟨trivial, ?_, by omega, ?_, trivial⟩
      · rw [writeAt]
      · rw [Nat.succ_mul]
        omega

/-- With too little output budget, one decode engine call decodes exactly as
many characters as the budget allows (in w-byte units) and stops with E2BIG
with less than w bytes left. -/
theorem icvDec_partial {α β : Type} (enc : α → Except Nat (List β))
    (dec : List β → Except Nat (α × Nat)) (w : Nat) (hLI : LeftInv enc dec) :
    ∀ S (tgt : List α) used outleft, GoodEnc enc S → outleft < S.length * w →
      ∃ S1 S2, S = S1 ++ S2 ∧ S2 ≠ [] ∧ S1.length * w ≤ outleft ∧
        outleft - S1.length * w < w ∧
        icvDec dec w (encBytes enc S) tgt used outleft =
          (encBytes enc S2, writeAt tgt used S1, used + S1.length,
            outleft - S1.length * w, .fail e2bigCode) := by
  intro S
  induction S with
  | nil => intro tgt used outleft _ hlt; simp at hlt
  | cons c cs ih =>
    intro tgt used outleft hgood hlt
    obtain ⟨es, hc, h1len, h4len⟩ := hgood c (List.mem_cons_self c cs)
    have henc : encBytes enc (c :: cs) = es ++ encBytes enc cs := by
      simp [encBytes, hc]
    cases hes : es with
    | nil =>
      rw [hes] at h1len
      simp at h1len
    | cons e0 es2 =>
      subst hes
      have hdec2 : dec (e0 :: (es2 ++ encBytes enc cs)) = .ok (c, es2.length) := by
        have := hLI c (e0 :: es2) (encBytes enc cs) hc
        simpa using this
      by_cases hsp : outleft < w
      · refine ⟨[], c :: cs, rfl, by simp, by simp, by simpa, ?_⟩
        have hstep : icvDec dec w (e0 :: (es2 ++ encBytes enc cs)) tgt used outleft =
            (e0 :: (es2 ++ encBytes enc cs), tgt, used, outleft, .fail e2bigCode) := by
          simp [icvDec, hdec2, hsp]
        rw [henc, List.cons_append, hstep]
        simp [writeAt, henc]
      · have hstep : icvDec dec w (e0 :: (es2 ++ encBytes enc cs)) tgt used outleft =
            icvDec dec w ((es2 ++ encBytes enc cs).drop es2.length) (tgt.set used c)
              (used + 1) (outleft - w) := by
          simp [icvDec, hdec2, hsp]
        have hdrop : (es2 ++ encBytes enc cs).drop es2.length = encBytes enc cs :=
          List.drop_left es2 (encBytes enc cs)
        have hlt2 : outleft - w < cs.length * w := by
          rw [List.length_cons, Nat.succ_mul] at hlt
          omega
        obtain ⟨S1, S2, hS, hne, hle1, hlt1, heq⟩ :=
          ih (tgt.set used c) (used + 1) (outleft - w)
            (fun x hx => hgood x (List.mem_cons_of_mem c hx)) hlt2
        refine ⟨c :: S1, S2, by rw [hS, List.cons_append], hne, ?_, ?_, ?_⟩
        · rw [List.length_cons, Nat.succ_mul]
          omega
        · rw [List.length_cons, Nat.succ_mul]
          omega
        · rw [henc, List.cons_append, hstep, hdrop, heq]
          simp only [Prod.mk.injEq, List.length_cons]
          refine ⟨trivial, ?_, by omega, ?_, trivial⟩
          · rw [writeAt]
          · rw [Nat.succ_mul]
            omega

/-- The fromUTF8 loop decodes an encoded input completely: starting from
storage of length base + used + m with m * w output bytes already budgeted,
it succeeds and returns a sequence of length base + used + |S| whose first
used + |S| characters are the untouched prefix followed by the decoded
characters. -/
theorem fromUTF8Go_decodes {α β : Type} (enc : α → Except Nat (List β))
    (dec : List β → Except Nat (α × Nat)) (w : Nat) (dflt : α)
    (strerror : Nat → String) (hw : 0 < w) (hLI : LeftInv enc dec) :
    ∀ fuel S (tgt : List α) used m base, GoodEnc enc S →
      (encBytes enc S).length < fuel → tgt.length = base + used + m →
      ∃ T, fromUTF8Go dec w dflt strerror fuel (encBytes enc S) tgt used (m * w) =
        some (.ok T) ∧ T.length = base + used + S.length ∧
        T.take (used + S.length) = tgt.take used ++ S := by
  intro fuel
  induction fuel with
  | zero => intro S tgt used m base _ h _; omega
  | succ f ih =>
    intro S tgt used m base hgood hflt hlen
    by_cases hcase : S.length ≤ m + max (encBytes enc S).length 4
    · have hle : S.length * w ≤ m * w + max (encBytes enc S).length 4 * w := by
        rw [← Nat.add_mul]
        exact Nat.mul_le_mul_right w hcase
      have hrun := icvDec_ok enc dec w hLI S
        (tgt ++ List.replicate (max (encBytes enc S).length 4) dflt) used
        (m * w + max (encBytes enc S).length 4 * w) hgood hle
      have hstep : fromUTF8Go dec w dflt strerror (f + 1) (encBytes enc S) tgt used
          (m * w) = some (.ok
            ((writeAt (tgt ++ List.replicate (max (encBytes enc S).length 4) dflt)
              used S).take
              ((writeAt (tgt ++ List.replicate (max (encBytes enc S).length 4) dflt)
                used S).length -
                (m * w + max (encBytes enc S).length 4 * w - S.length * w) / w))) := by
        simp [fromUTF8Go, hrun]
      have hargs : (writeAt (tgt ++ List.replicate (max (encBytes enc S).length 4) dflt)
          used S).length -
          (m * w + max (encBytes enc S).length 4 * w - S.length * w) / w =
          base + used + S.length := by
        rw [writeAt_length, List.length_append, List.length_replicate, hlen,
          ← Nat.add_mul, ← Nat.sub_mul, Nat.mul_div_cancel _ hw]
        omega
      rw [hargs] at hstep
      refine ⟨_, hstep, ?_, ?_⟩
      · rw [List.length_take, writeAt_length, List.length_append,
          List.length_replicate, hlen]
        omega
      · rw [List.take_take]
        have hmin : min (used + S.length) (base + used + S.length) = used + S.length := by
          omega

        rw [hmin]
        have hb : used + S.length ≤
            (tgt ++ List.replicate (max (encBytes enc S).length 4) dflt).length := by
          rw [List.length_append, List.length_replicate, hlen]
          omega
        rw [writeAt_take S _ used hb]
        rw [List.take_append_of_le_length (by rw [hlen]; omega)]
    · push_neg at hcase
      have hltm : m * w + max (encBytes enc S).length 4 * w < S.length * w := by
        rw [← Nat.add_mul]
        exact Nat.mul_lt_mul_of_pos_right hcase hw
      obtain ⟨S1, S2, hS, hne2, hle1, hlt1, heq⟩ :=
        icvDec_partial enc dec w hLI S
          (tgt ++ List.replicate (max (encBytes enc S).length 4) dflt) used
          (m * w + max (encBytes enc S).length 4 * w) hgood hltm
      have hS1le : S1.length ≤ m + max (encBytes enc S).length 4 := by
        refine Nat.le_of_mul_le_mul_right ?_ hw
        rw [Nat.add_mul]
        exact hle1
      have hS1eq : S1.length = m + max (encBytes enc S).length 4 := by
        by_contra hneq
        have hpos : 0 < m + max (encBytes enc S).length 4 - S1.length := by omega
        have hwle : w ≤ (m + max (encBytes enc S).length 4 - S1.length) * w :=
          Nat.le_mul_of_pos_left w hpos
        have hz : (m + max (encBytes enc S).length 4 - S1.length) * w < w := by
          rw [Nat.sub_mul, Nat.add_mul]
          exact hlt1
        omega
      have houtbl0 : m * w + max (encBytes enc S).length 4 * w - S1.length * w = 0 := by
        rw [hS1eq, ← Nat.add_mul, Nat.sub_self]
      have hstep : fromUTF8Go dec w dflt strerror (f + 1) (encBytes enc S) tgt used
          (m * w) = fromUTF8Go dec w dflt strerror f (encBytes enc S2)
            (writeAt (tgt ++ List.replicate (max (encBytes enc S).length 4) dflt)
              used S1) (used + S1.length)
            (m * w + max (encBytes enc S).length 4 * w - S1.length * w) := by
        simp [fromUTF8Go, heq]
      rw [houtbl0] at hstep
      have hgood1 : GoodEnc enc S1 := by
        intro x hx
        refine hgood x ?_
        rw [hS]
        exact List.mem_append_left S2 hx
      have hgood2 : GoodEnc enc S2 := by
        intro x hx
        refine hgood x ?_
        rw [hS]
        exact List.mem_append_right S1 hx
      have hS1ne : S1 ≠ [] := by
        intro hnil
        rw [hnil] at hS1eq
        have := le_max_right (encBytes enc S).length 4
        simp at hS1eq
        omega
      have hsplitB : encBytes enc S = encBytes enc S1 ++ encBytes enc S2 := by
        rw [hS, encBytes_append]
      have hB1pos : 0 < (encBytes enc S1).length := encBytes_ne_nil enc S1 hgood1 hS1ne
      have hfuel2 : (encBytes enc S2).length < f := by
        have : (encBytes enc S).length = (encBytes enc S1).length +
            (encBytes enc S2).length := by
          rw [hsplitB, List.length_append]
        omega
      have hlen2 : (writeAt (tgt ++ List.replicate (max (encBytes enc S).length 4) dflt)
          used S1).length = base + (used + S1.length) + 0 := by
        rw [writeAt_length, List.length_append, List.length_replicate, hlen]
        omega
      obtain ⟨T, hT, hTlen, hTtake⟩ := ih S2
        (writeAt (tgt ++ List.replicate (max (encBytes enc S).length 4) dflt) used S1)
        (used + S1.length) 0 base hgood2 hfuel2 hlen2
      rw [Nat.zero_mul] at hT
      have hSlen : S.length = S1.length + S2.length := by
        rw [hS, List.length_append]
      refine ⟨T, hstep.trans hT, by omega, ?_⟩
      have harg2 : used + S.length = used + S1.length + S2.length := by omega
      rw [harg2, hTtake]
      have hb1 : used + S1.length ≤
          (tgt ++ List.replicate (max (encBytes enc S).length 4) dflt).length := by
        rw [List.length_append, List.length_replicate, hlen]
        omega
      rw [writeAt_take S1 _ used hb1]
      rw [List.take_append_of_le_length (by rw [hlen]; omega)]
      rw [List.append_assoc, ← hS]

/-- C5: in every iteration of the toUTF8 retry loop, the capacity requested
from the growable buffer equals max(remaining input byte count, 4), hence
every request is at least 4 bytes, and each request extends from the current
write cursor: the first window starts at offset 0 and each later window
starts where the previous window's written bytes ended. -/
theorem toUTF8_capacity_requests {α β : Type} (enc : α → Except Nat (List β))
    (w : Nat) (strerror : Nat → String) (input : List α)
    (r : Except String (List β × Nat)) (tr : List GrowReq)
    (h : toUTF8Model enc w strerror input = some (r, tr)) :
    (∀ g ∈ tr, g.request = max g.remaining 4 ∧ 4 ≤ g.request) ∧ chainedFrom 0 tr := by
  obtain ⟨trNew, htr, hprops, hchain⟩ :=
    toUTF8Go_trace enc w strerror (input.length + 1) input [] [] r tr h
  rw [List.nil_append] at htr
  subst htr
  exact ⟨hprops, hchain⟩

/-- C5 witness: a concrete successful run with one window request of
max(2, 4) = 4 bytes at offset 0, which produced 2 bytes. -/
theorem toUTF8_capacity_requests_witness :
    (∀ g ∈ [GrowReq.mk 4 2 0 2], g.request = max g.remaining 4 ∧ 4 ≤ g.request) ∧
      chainedFrom 0 [GrowReq.mk 4 2 0 2] :=
  toUTF8_capacity_requests encId 1 strerrDemo [5, 6] (.ok ([5, 6], 2))
    [GrowReq.mk 4 2 0 2] (by rfl)

/-- C8: every engine failure other than the E2BIG output-space shortfall
makes toUTF8 / fromUTF8 raise IllegalConversion carrying the engine error
text when an errno is available and exactly "Unknown error" when errno is 0;
the surfaced code is never E2BIG itself (the shortfall is always retried,
never surfaced). -/
theorem illegal_conversion_message {α β : Type} (enc : α → Except Nat (List β))
    (dec : List β → Except Nat (α × Nat)) (w : Nat) (dflt : α)
    (strerror : Nat → String) (input : List α) (inbuf : List β) (t0 : List α) :
    (∀ m tr, toUTF8Model enc w strerror input = some (.error m, tr) →
      ∃ e, e ≠ e2bigCode ∧ (∃ c, enc c = .error e) ∧
        m = if e ≠ 0 then strerror e else "Unknown error") ∧
    (∀ m, fromUTF8Model dec w dflt strerror inbuf t0 = some (.error m) →
      ∃ e, e ≠ e2bigCode ∧ (∃ l, dec l = .error e) ∧
        m = if e ≠ 0 then strerror e else "Unknown error") := by
  constructor
  · intro m tr h
    obtain ⟨e, hne, hsrc, hm⟩ :=
      toUTF8Go_error_source enc w strerror (input.length + 1) input [] [] m tr h
    exact ⟨e, hne, hsrc, hm⟩
  · intro m h
    obtain ⟨e, hne, hsrc, hm⟩ :=
      fromUTF8Go_error_source dec w dflt strerror (inbuf.length + 1) inbuf t0 0 0 m h
    exact ⟨e, hne, hsrc, hm⟩

/-- C8 witness: concrete failing engines (errno 84) surface the strerror
text in both directions. -/
theorem illegal_conversion_message_witness :
    (∃ e, e ≠ e2bigCode ∧ (∃ c, encFail c = .error e) ∧
      "bad multibyte sequence" = if e ≠ 0 then strerrDemo e else "Unknown error") ∧
    (∃ e, e ≠ e2bigCode ∧ (∃ l, decFail l = .error e) ∧
      "bad multibyte sequence" = if e ≠ 0 then strerrDemo e else "Unknown error") := by
  constructor
  · exact (illegal_conversion_message encFail decFail 1 0 strerrDemo [5] [7] []).1
      "bad multibyte sequence" [GrowReq.mk 4 1 0 0] (by rfl)
  · refine (illegal_conversion_message encFail decFail 1 0 strerrDemo [5] [7] []).2
      "bad multibyte sequence" ?_
    simp [fromUTF8Model, fromUTF8Go, icvDec, decFail, e2bigCode, errText, strerrDemo]

/-- C9: both conversion loops terminate: with fuel just above the input
size, every run resolves to a result (success or a raised error), given an
engine whose encodings are at most 4 bytes wide and which reserves E2BIG for
the space condition.  Malformed input makes the run resolve to an error
rather than loop. -/
theorem conversion_loops_terminate {α β : Type} (enc : α → Except Nat (List β))
    (dec : List β → Except Nat (α × Nat)) (w : Nat) (dflt : α)
    (strerror : Nat → String) (h4 : EncLe4 enc) (hne : EncNoE2big enc)
    (hnd : DecNoE2big dec) (input : List α) (inbuf : List β) (t0 : List α) :
    (∃ r, toUTF8Model enc w strerror input = some r) ∧
    (∃ r2, fromUTF8Model dec w dflt strerror inbuf t0 = some r2) := by
  constructor
  · exact toUTF8Go_total enc w strerror h4 hne (input.length + 1) input [] []
      (Nat.lt_succ_self _)
  · exact fromUTF8Go_total dec w dflt strerror hnd (inbuf.length + 1) inbuf t0 0 0
      (Nat.lt_succ_self _)

/-- C9 witness: the terminating runs on a concrete engine and inputs. -/
theorem conversion_loops_terminate_witness :
    (∃ r, toUTF8Model encId 1 strerrDemo [3, 4] = some r) ∧
    (∃ r2, fromUTF8Model decId 1 0 strerrDemo [5] [] = some r2) := by
  refine conversion_loops_terminate encId decId 1 0 strerrDemo ?_ ?_ ?_ [3, 4] [5] []
  · intro c es h
    cases h
    simp
  · intro c e h
    exact absurd h (by simp [encId])
  · intro l e h
    cases l with
    | nil =>
      have h84 : (84 : Nat) = e := Except.error.inj h
      rw [← h84]
      decide
    | cons b bs => exact absurd h (by simp [decId])

/-- C1: for every string whose characters are representable in the internal
encoding (each encodes to 1..4 UTF-8 bytes, and the decode direction inverts
the encode direction), toUTF8 produces exactly the concatenated encoding,
and fromUTF8 of those bytes into an empty destination yields the original
string. -/
theorem toUTF8_fromUTF8_roundtrip {α β : Type} (enc : α → Except Nat (List β))
    (dec : List β → Except Nat (α × Nat)) (w : Nat) (dflt : α)
    (strerror : Nat → String) (S : List α) (hw : 0 < w) (hgood : GoodEnc enc S)
    (hLI : LeftInv enc dec) :
    ∃ tr, toUTF8Model enc w strerror S =
        some (.ok (encBytes enc S, (encBytes enc S).length), tr) ∧
      fromUTF8Model dec w dflt strerror (encBytes enc S) [] = some (.ok S) := by
  obtain ⟨tr, htr⟩ :=
    toUTF8Go_encodes enc w strerror (S.length + 1) S [] [] hgood (Nat.lt_succ_self _)
  refine ⟨tr, by simpa [toUTF8Model] using htr, ?_⟩
  obtain ⟨T, hT, hTlen, hTtake⟩ := fromUTF8Go_decodes enc dec w dflt strerror hw hLI
    ((encBytes enc S).length + 1) S [] 0 0 0 hgood (Nat.lt_succ_self _) rfl
  rw [Nat.zero_mul] at hT
  have hTeq : T = S := by
    have h1 : T.take (0 + S.length) = [].take 0 ++ S := hTtake
    rw [Nat.zero_add, List.take_nil, List.nil_append] at h1
    have h2 : S.length = T.length := by omega
    rw [h2, List.take_length] at h1
    exact h1
  rw [fromUTF8Model, hT, hTeq]

/-- C1 witness: a concrete round trip through the one-byte identity
engine. -/
theorem toUTF8_fromUTF8_roundtrip_witness :
    ∃ tr, toUTF8Model encId 1 strerrDemo [2, 3] =
        some (.ok (encBytes encId [2, 3], (encBytes encId [2, 3]).length), tr) ∧
      fromUTF8Model decId 1 0 strerrDemo (encBytes encId [2, 3]) [] =
        some (.ok [2, 3]) := by
  refine toUTF8_fromUTF8_roundtrip encId decId 1 0 strerrDemo [2, 3] (by decide) ?_ ?_
  · intro c hc
    exact ⟨[c], rfl, by simp, by simp⟩
  · intro c es bs h
    cases h
    rfl

/-- C2 counterexample: on a nonempty destination ([9]) and a one-byte input
decoding to the character 5, fromUTF8 returns [5, 0] -- the decoded
character is written at the start of the sequence, not appended after the
previous content, so neither is the result [9] ++ [5] nor is the previous
content [9] still the prefix. -/
theorem fromUTF8_nonempty_target_cex :
    fromUTF8Model decId 1 (0 : Nat) strerrDemo [5] [9] = some (.ok [5, 0]) ∧
      ([5, 0] : List Nat) ≠ [9] ++ [5] ∧ ([5, 0] : List Nat).take 1 ≠ [9] := by
  refine ⟨?_, by decide, by decide⟩
  have h1 : icvDec decId 1 [5] [9, 0, 0, 0, 0] 0 4 =
      ([], [5, 0, 0, 0, 0], 1, 3, .ok) := by
    have h2 : icvDec decId 1 ([] : List Nat) [5, 0, 0, 0, 0] 1 3 =
        ([], [5, 0, 0, 0, 0], 1, 3, .ok) := by
      simp [icvDec]
    have h3 : decId [5] = .ok (5, 0) := rfl
    rw [show ([5] : List Nat) = 5 :: [] from rfl]
    simp [icvDec, h3]
  simp [fromUTF8Model, fromUTF8Go, h1]

/-- C2 as amended: a successful fromUTF8 call writes the decoded characters
starting at the beginning of the destination sequence (overwriting any
previously present prefix rather than appending after it), and leaves the
sequence length equal to the previous length plus exactly the number of
produced characters (allocated length minus unused trailing capacity in
character units). -/
theorem fromUTF8_length_and_prefix {α β : Type} (enc : α → Except Nat (List β))
    (dec : List β → Except Nat (α × Nat)) (w : Nat) (dflt : α)
    (strerror : Nat → String) (S : List α) (t0 : List α) (hw : 0 < w)
    (hgood : GoodEnc enc S) (hLI : LeftInv enc dec) :
    ∃ T, fromUTF8Model dec w dflt strerror (encBytes enc S) t0 = some (.ok T) ∧
      T.length = t0.length + S.length ∧ T.take S.length = S := by
  obtain ⟨T, hT, hTlen, hTtake⟩ := fromUTF8Go_decodes enc dec w dflt strerror hw hLI
    ((encBytes enc S).length + 1) S t0 0 0 t0.length hgood (Nat.lt_succ_self _)
    (by omega)
  rw [Nat.zero_mul] at hT
  refine ⟨T, hT, by omega, ?_⟩
  have h1 : T.take (0 + S.length) = t0.take 0 ++ S := hTtake
  rw [Nat.zero_add, List.take_zero, List.nil_append] at h1
  exact h1

/-- C2 amended witness: decoding one character over the nonempty destination
[9] yields a sequence of length 2 whose first character is the decoded 7. -/
theorem fromUTF8_length_and_prefix_witness :
    ∃ T, fromUTF8Model decId 1 0 strerrDemo (encBytes encId [7]) [9] =
        some (.ok T) ∧ T.length = List.length [9] + List.length [7] ∧
      T.take (List.length [7]) = [7] := by
  refine fromUTF8_length_and_prefix encId decId 1 0 strerrDemo [7] [9] (by decide) ?_ ?_
  · intro c hc
    exact ⟨[c], rfl, by simp, by simp⟩
  · intro c es bs h
    cases h
    rfl

end IconvConv
